import Mathlib

/-!
Verification of the timeline-remapping core of the slidecast program
(`src/slidecast/main.py`).  Times are embedded as rationals; the Python
float literals `1e-9`, `1e-6` and `-1e9` become the exact rationals below.
-/

namespace Slidecast

/-- Merge tolerance used by `normalize_cuts` (`1e-9` in the source). -/
def mergeEps : ℚ := 1 / 1000000000

/-- Snap tolerance used by `adjust_timeline` (`1e-9` in the source). -/
def snapEps : ℚ := 1 / 1000000000

/-- Strict-monotonicity tolerance of the cleaning pass (`1e-6` in the source). -/
def monoEps : ℚ := 1 / 1000000

/-- Initial value of `last_t` in the cleaning pass (`-1e9` in the source). -/
def negInf : ℚ := -1000000000

/-- A slide-change event: time on the original axis, optional 1-based page. -/
structure SlideChange where
  t : ℚ
  page : Option ℤ
deriving DecidableEq, Repr

/-- Lexicographic comparison of pairs, the order used by Python's
`segments.sort()` on 2-tuples. -/
def lexLe (p q : ℚ × ℚ) : Bool :=
  decide (p.1 < q.1 ∨ (p.1 = q.1 ∧ p.2 ≤ q.2))

/-- Comparison by time component only, the key used by
`adjusted.sort(key=lambda x: x[0])`. -/
def timeLe (a b : ℚ × ℤ) : Bool :=
  decide (a.1 ≤ b.1)

/-- Insert an element into a list, before the first element it compares `le` to.
Together with `isortLe` this is a stable sort, matching Python's `list.sort`. -/
def insertLe (le : α → α → Bool) (a : α) : List α → List α
  | [] => [a]
  | b :: l => if le a b then a :: b :: l else b :: insertLe le a l

/-- Stable insertion sort. -/
def isortLe (le : α → α → Bool) : List α → List α
  | [] => []
  | a :: l => insertLe le a (isortLe le l)

/-- First stage of `normalize_cuts`:
`[(min(a,b), max(a,b)) for a, b in cuts if max(a,b) > min(a,b)]`. -/
def toSegments (cuts : List (ℚ × ℚ)) : List (ℚ × ℚ) :=
  (cuts.map (fun p => (min p.1 p.2, max p.1 p.2))).filter (fun p => decide (p.1 < p.2))

/-- Merge loop of `normalize_cuts`, carrying the last accumulated interval
`cur`: a new merged interval starts when the next start exceeds `cur`'s end
plus `mergeEps`; otherwise `cur`'s end is extended. -/
def mergeLoop (cur : ℚ × ℚ) : List (ℚ × ℚ) → List (ℚ × ℚ)
  | [] => [cur]
  | q :: rest =>
    if cur.2 + mergeEps < q.1 then cur :: mergeLoop q rest
    else mergeLoop (cur.1, max cur.2 q.2) rest

/-- Merge pass of `normalize_cuts` over the sorted segment list. -/
def mergeSorted : List (ℚ × ℚ) → List (ℚ × ℚ)
  | [] => []
  | p :: rest => mergeLoop p rest

/-- `normalize_cuts`: sort, merge overlaps, drop zero-length intervals. -/
def normalize_cuts (cuts : List (ℚ × ℚ)) : List (ℚ × ℚ) :=
  mergeSorted (isortLe lexLe (toSegments cuts))

/-- `total_cut_before(t, cuts)`: total duration removed strictly before `t`. -/
def total_cut_before (t : ℚ) : List (ℚ × ℚ) → ℚ
  | [] => 0
  | p :: rest =>
    (if p.2 ≤ t then p.2 - p.1
     else if p.1 < t ∧ t < p.2 then t - p.1
     else 0) + total_cut_before t rest

/-- Clipping of an event time to `[0, audio_orig_len]`:
`max(0.0, min(audio_orig_len, t))`. -/
def clipTime (len t : ℚ) : ℚ := max 0 (min len t)

/-- The snap loop of `adjust_timeline`: replace `t0` by the start of the first
cut for which `s < t0 < e or abs(t0 - s) < 1e-9`. -/
def snapTime (t0 : ℚ) : List (ℚ × ℚ) → ℚ
  | [] => t0
  | p :: rest =>
    if (p.1 < t0 ∧ t0 < p.2) ∨ |t0 - p.1| < snapEps then p.1 else snapTime t0 rest

/-- Page normalization: `ch.page if ch.page is not None else -1`. -/
def pageVal : Option ℤ → ℤ
  | some p => p
  | none => -1

/-- The per-event time computation of `adjust_timeline`: clip, snap, then map
to the cut axis by `max(0.0, t0 - total_cut_before(t0, cuts))`. -/
def perEventTime (cuts : List (ℚ × ℚ)) (len t : ℚ) : ℚ :=
  let t1 := snapTime (clipTime len t) cuts
  max 0 (t1 - total_cut_before t1 cuts)

/-- The per-event procedure of `adjust_timeline`. -/
def perEvent (cuts : List (ℚ × ℚ)) (len : ℚ) (ch : SlideChange) : ℚ × ℤ :=
  (perEventTime cuts len ch.t, pageVal ch.page)

/-- The cleaning pass of `adjust_timeline`: keep an event only when its time
exceeds the previously kept time by more than `monoEps`. -/
def cleanAdjusted (lastT : ℚ) : List (ℚ × ℤ) → List (ℚ × ℤ)
  | [] => []
  | a :: rest =>
    if lastT + monoEps < a.1 then a :: cleanAdjusted a.1 rest
    else cleanAdjusted lastT rest

/-- `adjust_timeline(changes, cuts, audio_orig_len)`. -/
def adjust_timeline (changes : List SlideChange) (cuts : List (ℚ × ℚ)) (len : ℚ) :
    List (ℚ × ℤ) :=
  let ncuts := normalize_cuts cuts
  cleanAdjusted negInf (isortLe timeLe (changes.map (perEvent ncuts len)))

/-- The cursor loop of `cuts_to_fragments`, with explicit cursor `start`. -/
def fragAux (start : ℚ) : List (ℚ × ℚ) → ℚ → List (ℚ × ℚ)
  | [], len => if start < len then [(start, len)] else []
  | p :: rest, len =>
    (if start < p.1 then [(start, p.1)] else []) ++
      (if len ≤ max start p.2 then [] else fragAux (max start p.2) rest len)

/-- `cuts_to_fragments(cuts, audio_orig_len)`: the kept complement of the cuts. -/
def cuts_to_fragments (cuts : List (ℚ × ℚ)) (len : ℚ) : List (ℚ × ℚ) :=
  fragAux 0 cuts len

/-- The uniform additive skew applied to a cut in `main`
(`map_cut = lambda cut: (cut[0] + skew, cut[1] + skew)`). -/
def map_cut (skew : ℚ) (cut : ℚ × ℚ) : ℚ × ℚ :=
  (cut.1 + skew, cut.2 + skew)

/-- The shape `normalize_cuts` guarantees for its output: every interval has
positive length, and consecutive intervals are separated by more than
`mergeEps`. -/
def NormalizedCuts (cuts : List (ℚ × ℚ)) : Prop :=
  (∀ p ∈ cuts, p.1 < p.2) ∧ cuts.Pairwise (fun p q => p.2 + mergeEps < q.1)

/-! ### Generic facts about the insertion sort -/

theorem mem_insertLe (le : α → α → Bool) (a x : α) (l : List α) :
    x ∈ insertLe le a l ↔ x = a ∨ x ∈ l := by
  induction l with
  | nil => simp [insertLe]
  | cons b l ih =>
    simp only [insertLe]
    split
    · simp [or_comm, or_assoc, or_left_comm]
    · simp [ih, or_comm, or_assoc, or_left_comm]

theorem mem_isortLe (le : α → α → Bool) (x : α) (l : List α) :
    x ∈ isortLe le l ↔ x ∈ l := by
  induction l with
  | nil => simp [isortLe]
  | cons a l ih => simp [isortLe, mem_insertLe, ih]

theorem pairwise_insertLe (le : α → α → Bool)
    (htot : ∀ a b, le a b = true ∨ le b a = true)
    (htrans : ∀ a b c, le a b = true → le b c = true → le a c = true)
    (a : α) (l : List α) (hl : l.Pairwise (fun x y => le x y = true)) :
    (insertLe le a l).Pairwise (fun x y => le x y = true) := by
  induction l with
  | nil => simp [insertLe]
  | cons b l ih =>
    rcases hl with _ | ⟨hb, hl⟩
    simp only [insertLe]
    by_cases hab : le a b = true
    · rw [if_pos hab]
      refine List.Pairwise.cons ?_ (List.Pairwise.cons hb hl)
      intro x hx
      rcases List.mem_cons.mp hx with rfl | hx
      · exact hab
      · exact htrans a b x hab (hb x hx)
    · rw [if_neg hab]
      refine List.Pairwise.cons ?_ (ih hl)
      intro x hx
      rcases (mem_insertLe le a x l).1 hx with rfl | hx
      · rcases htot x b with h | h
        · exact absurd h hab
        · exact h
      · exact hb x hx

theorem pairwise_isortLe (le : α → α → Bool)
    (htot : ∀ a b, le a b = true ∨ le b a = true)
    (htrans : ∀ a b c, le a b = true → le b c = true → le a c = true)
    (l : List α) : (isortLe le l).Pairwise (fun x y => le x y = true) := by
  induction l with
  | nil => simp [isortLe]
  | cons a l ih => exact pairwise_insertLe le htot htrans a (isortLe le l) ih

theorem insertLe_eq_cons (le : α → α → Bool) (a : α) (l : List α)
    (h : ∀ b ∈ l.head?, le a b = true) : insertLe le a l = a :: l := by
  cases l with
  | nil => rfl
  | cons b l => simp [insertLe, h b rfl]

theorem isortLe_eq_self (le : α → α → Bool) (l : List α)
    (hl : l.Pairwise (fun x y => le x y = true)) : isortLe le l = l := by
  induction l with
  | nil => rfl
  | cons a l ih =>
    rcases hl with _ | ⟨ha, hl⟩
    rw [isortLe, ih hl, insertLe_eq_cons]
    intro b hb
    exact ha b (List.mem_of_mem_head? hb)

theorem insertLe_map (f : α → α) (le : α → α → Bool)
    (hf : ∀ a b, le (f a) (f b) = le a b) (a : α) (l : List α) :
    insertLe le (f a) (l.map f) = (insertLe le a l).map f := by
  induction l with
  | nil => rfl
  | cons b l ih =>
    simp only [List.map, insertLe, hf]
    split <;> simp [ih]

theorem isortLe_map (f : α → α) (le : α → α → Bool)
    (hf : ∀ a b, le (f a) (f b) = le a b) (l : List α) :
    isortLe le (l.map f) = (isortLe le l).map f := by
  induction l with
  | nil => rfl
  | cons a l ih => simp only [List.map, isortLe, ih, insertLe_map f le hf]

/-! ### Properties of the lexicographic comparison -/

theorem lexLe_iff (p q : ℚ × ℚ) :
    lexLe p q = true ↔ p.1 < q.1 ∨ (p.1 = q.1 ∧ p.2 ≤ q.2) := by
  simp [lexLe]

theorem lexLe_total (p q : ℚ × ℚ) : lexLe p q = true ∨ lexLe q p = true := by
  rw [lexLe_iff, lexLe_iff]
  rcases lt_trichotomy p.1 q.1 with h | h | h
  · exact Or.inl (Or.inl h)
  · rcases le_total p.2 q.2 with h2 | h2
    · exact Or.inl (Or.inr ⟨h, h2⟩)
    · exact Or.inr (Or.inr ⟨h.symm, h2⟩)
  · exact Or.inr (Or.inl h)

theorem lexLe_trans (p q r : ℚ × ℚ) (h1 : lexLe p q = true) (h2 : lexLe q r = true) :
    lexLe p r = true := by
  rw [lexLe_iff] at h1 h2 ⊢
  rcases h1 with h1 | ⟨h1, h1'⟩ <;> rcases h2 with h2 | ⟨h2, h2'⟩
  · exact Or.inl (h1.trans h2)
  · exact Or.inl (h2 ▸ h1)
  · exact Or.inl (h1 ▸ h2)
  · exact Or.inr ⟨h1.trans h2, h1'.trans h2'⟩

theorem timeLe_total (a b : ℚ × ℤ) : timeLe a b = true ∨ timeLe b a = true := by
  simp only [timeLe, decide_eq_true_iff]
  exact le_total a.1 b.1

theorem timeLe_trans (a b c : ℚ × ℤ) (h1 : timeLe a b = true) (h2 : timeLe b c = true) :
    timeLe a c = true := by
  simp only [timeLe, decide_eq_true_iff] at h1 h2 ⊢
  exact h1.trans h2

/-! ### The normalization invariant -/

theorem mergeEps_pos : 0 < mergeEps := by norm_num [mergeEps]

theorem toSegments_cons (p : ℚ × ℚ) (l : List (ℚ × ℚ)) :
    toSegments (p :: l) =
      (if p.1 ≠ p.2 then [(min p.1 p.2, max p.1 p.2)] else []) ++ toSegments l := by
  simp only [toSegments, List.map, List.filter]
  rcases eq_or_ne p.1 p.2 with h | h
  · simp [h]
  · simp [h, min_lt_max.mpr h]

theorem toSegments_ordered (cuts : List (ℚ × ℚ)) :
    ∀ p ∈ toSegments cuts, p.1 < p.2 := by
  intro p hp
  simp only [toSegments, List.mem_filter, decide_eq_true_iff] at hp
  exact hp.2

theorem mergeLoop_start_lb (l : List (ℚ × ℚ)) : ∀ cur : ℚ × ℚ,
    (∀ p ∈ l, cur.1 ≤ p.1) → l.Pairwise (fun p q => p.1 ≤ q.1) →
    ∀ r ∈ mergeLoop cur l, cur.1 ≤ r.1 := by
  induction l with
  | nil =>
    intro cur _ _ r hr
    simp only [mergeLoop, List.mem_singleton] at hr
    exact hr ▸ le_refl _
  | cons q rest ih =>
    intro cur hlb hpw r hr
    rcases hpw with _ | ⟨hq, hpw⟩
    simp only [mergeLoop] at hr
    split at hr
    · rcases List.mem_cons.mp hr with rfl | hr
      · exact le_refl _
      · exact (hlb q (List.mem_cons_self q rest)).trans (ih q hq hpw r hr)
    · exact ih (cur.1, max cur.2 q.2) (fun p hp => hlb p (List.mem_cons_of_mem q hp)) hpw r hr

theorem mergeLoop_ordered (l : List (ℚ × ℚ)) : ∀ cur : ℚ × ℚ,
    cur.1 < cur.2 → (∀ p ∈ l, p.1 < p.2) →
    ∀ r ∈ mergeLoop cur l, r.1 < r.2 := by
  induction l with
  | nil =>
    intro cur hcur _ r hr
    simp only [mergeLoop, List.mem_singleton] at hr
    exact hr ▸ hcur
  | cons q rest ih =>
    intro cur hcur hl r hr
    simp only [mergeLoop] at hr
    split at hr
    · rcases List.mem_cons.mp hr with rfl | hr
      · exact hcur
      · exact ih q (hl q (List.mem_cons_self q rest))
          (fun p hp => hl p (List.mem_cons_of_mem q hp)) r hr
    · refine ih (cur.1, max cur.2 q.2) ?_ (fun p hp => hl p (List.mem_cons_of_mem q hp)) r hr
      exact lt_max_of_lt_left hcur

theorem mergeLoop_pairwise (l : List (ℚ × ℚ)) : ∀ cur : ℚ × ℚ,
    (∀ p ∈ l, cur.1 ≤ p.1) → l.Pairwise (fun p q => p.1 ≤ q.1) →
    (mergeLoop cur l).Pairwise (fun p q => p.2 + mergeEps < q.1) := by
  induction l with
  | nil =>
    intro cur _ _
    simp [mergeLoop]
  | cons q rest ih =>
    intro cur hlb hpw
    rcases hpw with _ | ⟨hq, hpw⟩
    simp only [mergeLoop]
    split
    · next hcond =>
      refine List.Pairwise.cons ?_ (ih q hq hpw)
      intro r hr
      exact lt_of_lt_of_le hcond (mergeLoop_start_lb rest q hq hpw r hr)
    · exact ih (cur.1, max cur.2 q.2) (fun p hp => hlb p (List.mem_cons_of_mem q hp)) hpw

theorem normalize_cuts_inv (cuts : List (ℚ × ℚ)) : NormalizedCuts (normalize_cuts cuts) := by
  unfold normalize_cuts
  have hord : ∀ p ∈ isortLe lexLe (toSegments cuts), p.1 < p.2 := by
    intro p hp
    exact toSegments_ordered cuts p ((mem_isortLe lexLe p (toSegments cuts)).1 hp)
  have hpw : (isortLe lexLe (toSegments cuts)).Pairwise (fun p q => p.1 ≤ q.1) := by
    refine (pairwise_isortLe lexLe lexLe_total lexLe_trans (toSegments cuts)).imp ?_
    intro p q h
    rcases (lexLe_iff p q).1 h with h | ⟨h, _⟩
    · exact le_of_lt h
    · exact le_of_eq h
  rcases hsorted : isortLe lexLe (toSegments cuts) with _ | ⟨p, rest⟩
  · exact ⟨by simp [mergeSorted], by simp [mergeSorted]⟩
  · rw [hsorted] at hord hpw
    rcases hpw with _ | ⟨hp, hpw⟩
    constructor
    · exact mergeLoop_ordered rest p (hord p (List.mem_cons_self p rest))
        (fun q hq => hord q (List.mem_cons_of_mem p hq))
    · exact mergeLoop_pairwise rest p hp hpw

theorem toSegments_eq_self (cuts : List (ℚ × ℚ)) (h : ∀ p ∈ cuts, p.1 < p.2) :
    toSegments cuts = cuts := by
  induction cuts with
  | nil => rfl
  | cons p rest ih =>
    have hp := h p (List.mem_cons_self p rest)
    rw [toSegments_cons, ih (fun q hq => h q (List.mem_cons_of_mem p hq))]
    simp [ne_of_lt hp, min_eq_left (le_of_lt hp), max_eq_right (le_of_lt hp)]

theorem mergeLoop_eq_self (l : List (ℚ × ℚ)) : ∀ cur : ℚ × ℚ,
    (∀ q ∈ l.head?, cur.2 + mergeEps < q.1) → l.Pairwise (fun p q => p.2 + mergeEps < q.1) →
    mergeLoop cur l = cur :: l := by
  induction l with
  | nil => intro cur _ _; rfl
  | cons q rest ih =>
    intro cur hhead hpw
    rcases hpw with _ | ⟨hq, hpw⟩
    have hcond : cur.2 + mergeEps < q.1 := hhead q rfl
    rw [mergeLoop, if_pos hcond, ih q ?_ hpw]
    intro r hr
    exact hq r (List.mem_of_mem_head? hr)

theorem normalize_cuts_eq_self (cuts : List (ℚ × ℚ)) (h : NormalizedCuts cuts) :
    normalize_cuts cuts = cuts := by
  obtain ⟨hord, hpw⟩ := h
  have hlex : cuts.Pairwise (fun p q => lexLe p q = true) := by
    refine hpw.imp_of_mem ?_
    intro p q hp _ hrel
    refine (lexLe_iff p q).2 (Or.inl ?_)
    calc p.1 < p.2 := hord p hp
      _ < p.2 + mergeEps := lt_add_of_pos_right _ mergeEps_pos
      _ < q.1 := hrel
  rw [normalize_cuts, toSegments_eq_self cuts hord, isortLe_eq_self lexLe cuts hlex]
  rcases cuts with _ | ⟨p, rest⟩
  · rfl
  · rcases hpw with _ | ⟨hp, hpw⟩
    rw [mergeSorted, mergeLoop_eq_self rest p ?_ hpw]
    intro r hr
    exact hp r (List.mem_of_mem_head? hr)

example : normalize_cuts [(10, 20), (19, 25)] = [(10, 25)] := by
  norm_num [normalize_cuts, toSegments, isortLe, insertLe, lexLe, mergeSorted, mergeLoop,
    mergeEps]
example : cuts_to_fragments [(10, 20), (50, 60)] 100 = [(0, 10), (20, 50), (60, 100)] := by
  norm_num [cuts_to_fragments, fragAux]
example : total_cut_before 30 [(10, 25)] = 15 := by
  norm_num [total_cut_before]
example : perEventTime [(10, 25)] 100 22 = 10 := by
  norm_num [perEventTime, snapTime, clipTime, total_cut_before, snapEps]
example : perEventTime [(10, 25)] 100 30 = 15 := by
  norm_num [perEventTime, snapTime, clipTime, total_cut_before, snapEps]
example : adjust_timeline [⟨2, none⟩] [] 10 = [(2, -1)] := by
  norm_num [adjust_timeline, normalize_cuts, toSegments, isortLe, insertLe, mergeSorted,
    cleanAdjusted, perEvent, perEventTime, snapTime, clipTime, total_cut_before, pageVal,
    negInf, monoEps, timeLe]

/-! ### Claims C7, C1, C2 -/

/-- C7: `normalize_cuts` is idempotent: for every input cut list, applying
`normalize_cuts` to the result of `normalize_cuts` returns that result
unchanged. -/
theorem c7_normalize_cuts_idempotent (cuts : List (ℚ × ℚ)) :
    normalize_cuts (normalize_cuts cuts) = normalize_cuts cuts :=
  normalize_cuts_eq_self (normalize_cuts cuts) (normalize_cuts_inv cuts)

/-- C1 counterexample: the inverted pair `(5, 2)` is not dropped by
`normalize_cuts`; it is reordered to `(2, 5)` and contributes an interval. -/
theorem c1_counterexample :
    (2 : ℚ) < 5 ∧ normalize_cuts [((5 : ℚ), (2 : ℚ))] = [((2 : ℚ), (5 : ℚ))] ∧
      normalize_cuts [((5 : ℚ), (2 : ℚ))] ≠ [] := by
  refine ⟨by norm_num, ?_, ?_⟩ <;>
    norm_num [normalize_cuts, toSegments, isortLe, insertLe, mergeSorted, mergeLoop]

theorem toSegments_swap (cuts : List (ℚ × ℚ)) :
    toSegments (cuts.map (fun p => (p.2, p.1))) = toSegments cuts := by
  induction cuts with
  | nil => rfl
  | cons p rest ih =>
    rw [List.map_cons, toSegments_cons, toSegments_cons, ih]
    simp [min_comm, max_comm, ne_comm]

theorem toSegments_filter_ne (cuts : List (ℚ × ℚ)) :
    toSegments (cuts.filter (fun p => decide (p.1 ≠ p.2))) = toSegments cuts := by
  induction cuts with
  | nil => rfl
  | cons p rest ih =>
    rw [List.filter_cons]
    rcases eq_or_ne p.1 p.2 with h | h
    · rw [if_neg (by simp [h]), ih, toSegments_cons, if_neg (not_not_intro h),
        List.nil_append]
    · rw [if_pos (by simp [h]), toSegments_cons, toSegments_cons, ih]

/-- C1 amended: inverted pairs are not dropped by `normalize_cuts`; each is
reordered to `(min, max)` and contributes exactly as the ordered pair does.
Only zero-length pairs (equal endpoints) are dropped and contribute no
interval. -/
theorem c1_only_zero_length_dropped (cuts : List (ℚ × ℚ)) :
    normalize_cuts (cuts.map (fun p => (p.2, p.1))) = normalize_cuts cuts ∧
    normalize_cuts (cuts.filter (fun p => decide (p.1 ≠ p.2))) = normalize_cuts cuts := by
  constructor
  · rw [normalize_cuts, toSegments_swap, normalize_cuts]
  · rw [normalize_cuts, toSegments_filter_ne, normalize_cuts]

theorem toSegments_map_cut (skew : ℚ) (cuts : List (ℚ × ℚ)) :
    toSegments (cuts.map (map_cut skew)) = (toSegments cuts).map (map_cut skew) := by
  induction cuts with
  | nil => rfl
  | cons p rest ih =>
    rw [List.map_cons, toSegments_cons, toSegments_cons, ih, List.map_append]
    rcases eq_or_ne p.1 p.2 with h | h
    · simp [map_cut, h]
    · have h' : p.1 + skew ≠ p.2 + skew := by
        intro hc
        exact h (by linarith)
      simp only [map_cut, h, h', if_pos, ne_eq, not_false_eq_true]
      simp [map_cut, min_add_add_right, max_add_add_right]

theorem lexLe_map_cut (skew : ℚ) (p q : ℚ × ℚ) :
    lexLe (map_cut skew p) (map_cut skew q) = lexLe p q := by
  simp only [lexLe, map_cut, decide_eq_decide]
  constructor
  · rintro (h | ⟨h, h'⟩)
    · exact Or.inl (by linarith)
    · exact Or.inr ⟨by linarith, by linarith⟩
  · rintro (h | ⟨h, h'⟩)
    · exact Or.inl (by linarith)
    · exact Or.inr ⟨by linarith, by linarith⟩

theorem mergeLoop_map_cut (skew : ℚ) (l : List (ℚ × ℚ)) : ∀ cur : ℚ × ℚ,
    mergeLoop (map_cut skew cur) (l.map (map_cut skew)) =
      (mergeLoop cur l).map (map_cut skew) := by
  induction l with
  | nil => intro cur; rfl
  | cons q rest ih =>
    intro cur
    have hc : (map_cut skew cur).2 + mergeEps < (map_cut skew q).1 ↔
        cur.2 + mergeEps < q.1 := by
      simp only [map_cut]
      constructor <;> intro <;> linarith
    rw [List.map_cons, mergeLoop, mergeLoop, if_congr hc rfl rfl]
    split
    · rw [List.map_cons, ih q]
    · have hm : ((map_cut skew cur).1, max (map_cut skew cur).2 (map_cut skew q).2) =
          map_cut skew (cur.1, max cur.2 q.2) := by
        simp [map_cut, max_add_add_right]
      rw [hm, ih]

theorem mergeSorted_map_cut (skew : ℚ) (l : List (ℚ × ℚ)) :
    mergeSorted (l.map (map_cut skew)) = (mergeSorted l).map (map_cut skew) := by
  cases l with
  | nil => rfl
  | cons p rest => rw [List.map_cons, mergeSorted, mergeSorted, mergeLoop_map_cut]

/-- C2: applying the uniform additive skew to every cut endpoint before
normalization yields the same list as normalizing first and then skewing each
normalized interval (the order the program uses): `normalize_cuts` commutes
with a uniform additive shift of all endpoints. -/
theorem c2_normalize_cuts_skew_comm (cuts : List (ℚ × ℚ)) (skew : ℚ) :
    normalize_cuts (cuts.map (map_cut skew)) = (normalize_cuts cuts).map (map_cut skew) := by
  rw [normalize_cuts, normalize_cuts, toSegments_map_cut,
    isortLe_map (map_cut skew) lexLe (lexLe_map_cut skew), mergeSorted_map_cut]

/-! ### Claim C4: monotonicity of total_cut_before -/

theorem cutTerm_eq_max (p : ℚ × ℚ) (t : ℚ) (hp : p.1 ≤ p.2) :
    (if p.2 ≤ t then p.2 - p.1 else if p.1 < t ∧ t < p.2 then t - p.1 else 0) =
      max 0 (min p.2 t - p.1) := by
  split_ifs with h1 h2
  · rw [min_eq_left h1, max_eq_right (by linarith)]
  · obtain ⟨h2a, h2b⟩ := h2
    rw [min_eq_right (le_of_lt h2b), max_eq_right (by linarith)]
  · push_neg at h1 h2
    have ht : t ≤ p.1 := by
      by_contra hc
      push_neg at hc
      exact absurd (h2 hc) (not_le.mpr h1)
    rw [min_eq_right (le_of_lt h1), max_eq_left (by linarith)]

/-- C4: for a cut list whose pairs are ordered (as every normalized cut list
is), `total_cut_before` is monotonically non-decreasing in the query time. -/
theorem c4_total_cut_before_mono (cuts : List (ℚ × ℚ)) (t1 t2 : ℚ)
    (hord : ∀ p ∈ cuts, p.1 ≤ p.2) (h : t1 ≤ t2) :
    total_cut_before t1 cuts ≤ total_cut_before t2 cuts := by
  induction cuts with
  | nil => simp [total_cut_before]
  | cons p rest ih =>
    have hp := hord p (List.mem_cons_self p rest)
    have ih' := ih fun q hq => hord q (List.mem_cons_of_mem p hq)
    rw [total_cut_before, total_cut_before, cutTerm_eq_max p t1 hp, cutTerm_eq_max p t2 hp]
    have hterm : max 0 (min p.2 t1 - p.1) ≤ max 0 (min p.2 t2 - p.1) :=
      max_le_max (le_refl 0) (sub_le_sub_right (min_le_min (le_refl p.2) h) p.1)
    linarith

/-- Witness for C4 at the concrete normalized cut list `[(10, 25)]`. -/
theorem c4_total_cut_before_mono_witness :
    ((∀ p ∈ [((10 : ℚ), (25 : ℚ))], p.1 ≤ p.2) ∧ (5 : ℚ) ≤ 30) ∧
      total_cut_before 5 [((10 : ℚ), (25 : ℚ))] ≤
        total_cut_before 30 [((10 : ℚ), (25 : ℚ))] :=
  ⟨⟨by norm_num, by norm_num⟩,
    c4_total_cut_before_mono [((10 : ℚ), (25 : ℚ))] 5 30 (by norm_num) (by norm_num)⟩

/-! ### Claim C5: strict output monotonicity of adjust_timeline -/

theorem monoEps_pos : 0 < monoEps := by norm_num [monoEps]

theorem cleanAdjusted_mem_gt (l : List (ℚ × ℤ)) : ∀ lastT : ℚ,
    ∀ x ∈ cleanAdjusted lastT l, lastT + monoEps < x.1 := by
  induction l with
  | nil =>
    intro lastT x hx
    simp [cleanAdjusted] at hx
  | cons a rest ih =>
    intro lastT x hx
    rw [cleanAdjusted] at hx
    split at hx
    · next hcond =>
      rcases List.mem_cons.mp hx with rfl | hx
      · exact hcond
      · have h1 := ih a.1 x hx
        have h2 := monoEps_pos
        linarith
    · exact ih lastT x hx

theorem cleanAdjusted_pairwise (l : List (ℚ × ℤ)) : ∀ lastT : ℚ,
    (cleanAdjusted lastT l).Pairwise (fun a b => a.1 < b.1) := by
  induction l with
  | nil =>
    intro lastT
    simp [cleanAdjusted]
  | cons a rest ih =>
    intro lastT
    rw [cleanAdjusted]
    split
    · refine List.Pairwise.cons ?_ (ih a.1)
      intro x hx
      have := cleanAdjusted_mem_gt rest a.1 x hx
      have := monoEps_pos
      linarith
    · exact ih lastT

/-- C5: for every input slide-change list, cut list and audio duration, the
sequence returned by `adjust_timeline` is strictly increasing in its time
component across the whole produced sequence. -/
theorem c5_adjust_timeline_strictly_increasing (changes : List SlideChange)
    (cuts : List (ℚ × ℚ)) (len : ℚ) :
    (adjust_timeline changes cuts len).Pairwise (fun a b => a.1 < b.1) := by
  unfold adjust_timeline
  exact cleanAdjusted_pairwise _ negInf

/-! ### Claim C10: None pages become the sentinel -1 -/

theorem cleanAdjusted_subset (l : List (ℚ × ℤ)) : ∀ lastT : ℚ,
    ∀ x ∈ cleanAdjusted lastT l, x ∈ l := by
  induction l with
  | nil =>
    intro lastT x hx
    simp [cleanAdjusted] at hx
  | cons a rest ih =>
    intro lastT x hx
    rw [cleanAdjusted] at hx
    split at hx
    · rcases List.mem_cons.mp hx with rfl | hx
      · exact List.mem_cons_self _ _
      · exact List.mem_cons_of_mem a (ih a.1 x hx)
    · exact List.mem_cons_of_mem a (ih lastT x hx)

/-- C10: every event emitted by `adjust_timeline` carries the page of some
input event, where an unspecified page (`None`) is replaced by the sentinel
`-1`, strictly below every valid 1-based page number. -/
theorem c10_none_page_sentinel (changes : List SlideChange) (cuts : List (ℚ × ℚ))
    (len : ℚ) (t : ℚ) (p : ℤ) (h : (t, p) ∈ adjust_timeline changes cuts len) :
    ∃ ch ∈ changes, p = pageVal ch.page ∧
      (ch.page = none → p = -1) ∧ (ch.page = none → ∀ n : ℤ, 1 ≤ n → p < n) := by
  unfold adjust_timeline at h
  have h1 := cleanAdjusted_subset _ _ _ h
  have h2 := (mem_isortLe timeLe _ _).1 h1
  obtain ⟨ch, hch, heq⟩ := List.mem_map.1 h2
  have hp : p = pageVal ch.page := by
    have := congrArg Prod.snd heq
    simpa [perEvent] using this.symm
  refine ⟨ch, hch, hp, fun hnone => ?_, fun hnone n hn => ?_⟩
  · rw [hp, hnone]
    rfl
  · rw [hp, hnone]
    show (-1 : ℤ) < n
    omega

/-- Witness for C10: a single event with `page = None` survives and is emitted
with page `-1`. -/
theorem c10_none_page_sentinel_witness :
    ((2 : ℚ), (-1 : ℤ)) ∈ adjust_timeline [⟨2, none⟩] [] 10 ∧
      ∃ ch ∈ [(⟨2, none⟩ : SlideChange)], (-1 : ℤ) = pageVal ch.page ∧
        (ch.page = none → (-1 : ℤ) = -1) ∧
        (ch.page = none → ∀ n : ℤ, 1 ≤ n → (-1 : ℤ) < n) := by
  have hmem : ((2 : ℚ), (-1 : ℤ)) ∈ adjust_timeline [⟨2, none⟩] [] 10 := by
    norm_num [adjust_timeline, normalize_cuts, toSegments, isortLe, insertLe, mergeSorted,
      cleanAdjusted, perEvent, perEventTime, snapTime, clipTime, total_cut_before, pageVal,
      negInf, monoEps, timeLe]
  exact ⟨hmem, c10_none_page_sentinel [⟨2, none⟩] [] 10 2 (-1) hmem⟩

/-! ### Claim C8: no-cuts behaviour of adjust_timeline -/

/-- C8 counterexample: with an empty cut list, two events at the same original
time produce a single output time, so the list of produced times differs from
the list of clipped original times (the cleaning pass drops a duplicate). -/
theorem c8_counterexample :
    (adjust_timeline [⟨3, some 1⟩, ⟨3, some 2⟩] [] 10).map Prod.fst = [(3 : ℚ)] ∧
      ([⟨3, some 1⟩, ⟨3, some 2⟩] : List SlideChange).map (fun ch => clipTime 10 ch.t) =
        [3, 3] ∧
      [(3 : ℚ)] ≠ [3, 3] := by
  refine ⟨?_, by norm_num [clipTime], by simp⟩
  norm_num [adjust_timeline, normalize_cuts, toSegments, isortLe, insertLe, mergeSorted,
    cleanAdjusted, perEvent, perEventTime, snapTime, clipTime, total_cut_before, pageVal,
    negInf, monoEps, timeLe]

/-- C8 amended: with an empty cut list the per-event mapped time of
`adjust_timeline` is exactly the original time clipped to `[0, len]` with no
shift applied; the output is the sort-and-deduplicate post-pass applied to
those clipped times. -/
theorem c8_no_cuts_mapped_times_are_clipped (changes : List SlideChange) (len : ℚ) :
    adjust_timeline changes [] len =
      cleanAdjusted negInf (isortLe timeLe
        (changes.map fun ch => (clipTime len ch.t, pageVal ch.page))) := by
  have hev : perEvent (normalize_cuts []) len =
      fun ch => (clipTime len ch.t, pageVal ch.page) := by
    funext ch
    show perEvent [] len ch = _
    have h0 : (0 : ℚ) ≤ clipTime len ch.t := le_max_left 0 _
    simp [perEvent, perEventTime, snapTime, total_cut_before, max_eq_right h0]
  show cleanAdjusted negInf
      (isortLe timeLe (List.map (perEvent (normalize_cuts []) len) changes)) = _
  rw [hev]

/-! ### Claims C9 and C3: fragment invariants and tiling -/

theorem fragAux_mem_lb (l : List (ℚ × ℚ)) : ∀ start len : ℚ,
    ∀ f ∈ fragAux start l len, start ≤ f.1 := by
  induction l with
  | nil =>
    intro start len f hf
    rw [fragAux] at hf
    split at hf
    · rw [List.mem_singleton] at hf
      exact hf ▸ le_refl _
    · cases hf
  | cons q rest ih =>
    intro start len f hf
    rw [fragAux] at hf
    rcases List.mem_append.mp hf with hf | hf
    · split at hf
      · rw [List.mem_singleton] at hf
        exact hf ▸ le_refl _
      · cases hf
    · split at hf
      · cases hf
      · exact (le_max_left start q.2).trans (ih (max start q.2) len f hf)

theorem fragAux_pos (l : List (ℚ × ℚ)) : ∀ start len : ℚ,
    ∀ f ∈ fragAux start l len, f.1 < f.2 := by
  induction l with
  | nil =>
    intro start len f hf
    rw [fragAux] at hf
    split at hf
    · next hc =>
      rw [List.mem_singleton] at hf
      exact hf ▸ hc
    · cases hf
  | cons q rest ih =>
    intro start len f hf
    rw [fragAux] at hf
    rcases List.mem_append.mp hf with hf | hf
    · split at hf
      · next hc =>
        rw [List.mem_singleton] at hf
        exact hf ▸ hc
      · cases hf
    · split at hf
      · cases hf
      · exact ih (max start q.2) len f hf

theorem fragAux_mem_ub (l : List (ℚ × ℚ)) : ∀ start len : ℚ,
    (∀ p ∈ l, p.1 ≤ p.2) → (∀ p ∈ l, p.2 ≤ len) →
    ∀ f ∈ fragAux start l len, f.2 ≤ len := by
  induction l with
  | nil =>
    intro start len _ _ f hf
    rw [fragAux] at hf
    split at hf
    · rw [List.mem_singleton] at hf
      exact hf ▸ le_refl _
    · cases hf
  | cons q rest ih =>
    intro start len hord hub f hf
    rw [fragAux] at hf
    rcases List.mem_append.mp hf with hf | hf
    · split at hf
      · rw [List.mem_singleton] at hf
        have hq1 : q.1 ≤ q.2 := hord q (List.mem_cons_self q rest)
        have hq2 : q.2 ≤ len := hub q (List.mem_cons_self q rest)
        rw [hf]
        exact hq1.trans hq2
      · cases hf
    · split at hf
      · cases hf
      · exact ih (max start q.2) len (fun p hp => hord p (List.mem_cons_of_mem q hp))
          (fun p hp => hub p (List.mem_cons_of_mem q hp)) f hf

theorem fragAux_pairwise (l : List (ℚ × ℚ)) : ∀ start len : ℚ,
    (∀ p ∈ l, p.1 ≤ p.2) →
    (fragAux start l len).Pairwise (fun f g => f.2 ≤ g.1) := by
  induction l with
  | nil =>
    intro start len _
    rw [fragAux]
    split
    · exact List.pairwise_singleton _ _
    · exact List.Pairwise.nil
  | cons q rest ih =>
    intro start len hord
    have hq : q.1 ≤ q.2 := hord q (List.mem_cons_self q rest)
    rw [fragAux]
    refine List.pairwise_append.mpr ⟨?_, ?_, ?_⟩
    · split
      · exact List.pairwise_singleton _ _
      · exact List.Pairwise.nil
    · split
      · exact List.Pairwise.nil
      · exact ih (max start q.2) len (fun p hp => hord p (List.mem_cons_of_mem q hp))
    · intro a ha b hb
      split at ha
      · rw [List.mem_singleton] at ha
        split at hb
        · cases hb
        · have hb1 := fragAux_mem_lb rest (max start q.2) len b hb
          rw [ha]
          show q.1 ≤ b.1
          calc q.1 ≤ q.2 := hq
            _ ≤ max start q.2 := le_max_right start q.2
            _ ≤ b.1 := hb1
      · cases ha

/-- C9 counterexample: for the inverted pair `(5, 2)` the emitted fragments
`(0,5)` and `(2,10)` overlap, refuting the pairwise-disjointness part for
arbitrary (non-normalized) cut lists. -/
theorem c9_counterexample :
    cuts_to_fragments [((5 : ℚ), (2 : ℚ))] 10 = [(0, 5), (2, 10)] ∧
      ¬ (cuts_to_fragments [((5 : ℚ), (2 : ℚ))] 10).Pairwise (fun f g => f.2 ≤ g.1) := by
  have h : cuts_to_fragments [((5 : ℚ), (2 : ℚ))] 10 = [(0, 5), (2, 10)] := by
    norm_num [cuts_to_fragments, fragAux]
  refine ⟨h, ?_⟩
  rw [h]
  intro hpw
  rcases hpw with _ | ⟨h5, _⟩
  have h52 := h5 (2, 10) (List.mem_singleton.mpr rfl)
  norm_num at h52

/-- C9 amended: every fragment emitted by `cuts_to_fragments` satisfies
`start < end`, for every cut list and duration; the fragments are in addition
pairwise disjoint and ordered (each fragment's end at most the next start)
whenever every input pair is ordered (first ≤ second), as every normalized
cut list is — but not for arbitrary inverted pairs. -/
theorem c9_fragment_invariants (cuts : List (ℚ × ℚ)) (len : ℚ) :
    (∀ f ∈ cuts_to_fragments cuts len, f.1 < f.2) ∧
      ((∀ p ∈ cuts, p.1 ≤ p.2) →
        (cuts_to_fragments cuts len).Pairwise (fun f g => f.2 ≤ g.1)) :=
  ⟨fragAux_pos cuts 0 len, fun h => fragAux_pairwise cuts 0 len h⟩

/-- Witness for C9 at the cut list `[(2, 4)]` with duration 6. -/
theorem c9_fragment_invariants_witness :
    (∀ p ∈ [((2 : ℚ), (4 : ℚ))], p.1 ≤ p.2) ∧
      (cuts_to_fragments [((2 : ℚ), (4 : ℚ))] 6).Pairwise (fun f g => f.2 ≤ g.1) :=
  ⟨by norm_num, (c9_fragment_invariants [((2 : ℚ), (4 : ℚ))] 6).2 (by norm_num)⟩

theorem fragAux_cut_disjoint (l : List (ℚ × ℚ)) : ∀ start len : ℚ,
    (∀ p ∈ l, p.1 ≤ p.2) → l.Pairwise (fun p q => p.2 ≤ q.1) →
    (∀ p ∈ l, start ≤ p.1) →
    ∀ f ∈ fragAux start l len, ∀ p ∈ l, f.2 ≤ p.1 ∨ p.2 ≤ f.1 := by
  induction l with
  | nil =>
    intro start len _ _ _ f _ p hp
    cases hp
  | cons q rest ih =>
    intro start len hord hpw hstart f hf p hp
    rcases hpw with _ | ⟨hq, hpw⟩
    have hqord : q.1 ≤ q.2 := hord q (List.mem_cons_self q rest)
    rw [fragAux] at hf
    rcases List.mem_append.mp hf with hf | hf
    · split at hf
      · rw [List.mem_singleton] at hf
        subst hf
        rcases List.mem_cons.mp hp with rfl | hp'
        · exact Or.inl (le_refl _)
        · exact Or.inl (hqord.trans (hq p hp'))
      · cases hf
    · split at hf
      · cases hf
      · rcases List.mem_cons.mp hp with rfl | hp'
        · refine Or.inr ?_
          have := fragAux_mem_lb rest (max start p.2) len f hf
          exact (le_max_right start p.2).trans this
        · exact ih (max start q.2) len (fun r hr => hord r (List.mem_cons_of_mem q hr)) hpw
            (fun r hr => max_le (hstart r (List.mem_cons_of_mem q hr)) (hq r hr)) f hf p hp'

theorem fragAux_cover (l : List (ℚ × ℚ)) : ∀ start len : ℚ,
    (∀ p ∈ l, p.1 ≤ p.2) → l.Pairwise (fun p q => p.2 ≤ q.1) →
    (∀ p ∈ l, start ≤ p.1) → (∀ p ∈ l, p.2 ≤ len) → start < len →
    ∀ x : ℚ, start ≤ x → x ≤ len →
      (∃ f ∈ fragAux start l len, f.1 ≤ x ∧ x ≤ f.2) ∨ ∃ p ∈ l, p.1 ≤ x ∧ x ≤ p.2 := by
  induction l with
  | nil =>
    intro start len _ _ _ _ hlt x hx1 hx2
    refine Or.inl ⟨(start, len), ?_, hx1, hx2⟩
    rw [fragAux, if_pos hlt]
    exact List.mem_singleton.mpr rfl
  | cons q rest ih =>
    intro start len hord hpw hstart hub hlt x hx1 hx2
    rcases hpw with _ | ⟨hq, hpw⟩
    have hqord : q.1 ≤ q.2 := hord q (List.mem_cons_self q rest)
    have hsq : start ≤ q.1 := hstart q (List.mem_cons_self q rest)
    by_cases hxq : x ≤ q.1
    · by_cases hsq' : start < q.1
      · refine Or.inl ⟨(start, q.1), ?_, hx1, hxq⟩
        rw [fragAux, if_pos hsq']
        exact List.mem_append.mpr (Or.inl (List.mem_singleton.mpr rfl))
      · have hse : start = q.1 := le_antisymm hsq (not_lt.mp hsq')
        refine Or.inr ⟨q, List.mem_cons_self q rest, ?_, ?_⟩
        · rw [← hse]
          exact hx1
        · have hxe : x = q.1 := le_antisymm hxq (hse ▸ hx1)
          rw [hxe]
          exact hqord
    · push_neg at hxq
      by_cases hxe : x ≤ q.2
      · exact Or.inr ⟨q, List.mem_cons_self q rest, le_of_lt hxq, hxe⟩
      · push_neg at hxe
        have hx' : max start q.2 ≤ x := max_le hx1 (le_of_lt hxe)
        by_cases hbreak : len ≤ max start q.2
        · exfalso
          have hxm : x = max start q.2 := le_antisymm (hx2.trans hbreak) hx'
          rcases max_choice start q.2 with hm | hm
          · rw [hm] at hxm
            exact absurd (hxm ▸ hxq) (not_lt.mpr hsq)
          · rw [hm] at hxm
            exact absurd hxm (ne_of_gt hxe)
        · push_neg at hbreak
          have hres := ih (max start q.2) len
            (fun r hr => hord r (List.mem_cons_of_mem q hr)) hpw
            (fun r hr => max_le (hstart r (List.mem_cons_of_mem q hr)) (hq r hr))
            (fun r hr => hub r (List.mem_cons_of_mem q hr)) hbreak x hx' hx2
          rcases hres with ⟨f, hf, hfx⟩ | ⟨p, hp, hpx⟩
          · refine Or.inl ⟨f, ?_, hfx⟩
            rw [fragAux]
            refine List.mem_append.mpr (Or.inr ?_)
            rw [if_neg (not_le.mpr hbreak)]
            exact hf
          · exact Or.inr ⟨p, List.mem_cons_of_mem q hp, hpx⟩

/-- C3 counterexample: (a) for the normalized cut list `[(5, 20)]` and
duration 10 the point 15 lies in a cut but outside `[0, 10]`, so fragments
plus cuts do not tile `[0, 10]`; (b) with no cuts and duration 0 the point 0
lies in `[0, 0]` but in no fragment and no cut. -/
theorem c3_counterexample :
    (cuts_to_fragments [((5 : ℚ), (20 : ℚ))] 10 = [(0, 5)] ∧ (5 : ℚ) < 20 ∧
      ¬ ((15 : ℚ) ≤ 10) ∧ (5 : ℚ) ≤ 15 ∧ (15 : ℚ) ≤ 20) ∧
    (cuts_to_fragments ([] : List (ℚ × ℚ)) 0 = [] ∧ (0 : ℚ) ≤ 0) := by
  refine ⟨⟨?_, by norm_num, by norm_num, by norm_num, by norm_num⟩, ⟨?_, le_refl 0⟩⟩
  · norm_num [cuts_to_fragments, fragAux]
  · norm_num [cuts_to_fragments, fragAux]

/-- C3 amended: for every cut list whose pairs are ordered, sorted and
pairwise disjoint (as every normalized list is), whose intervals lie within
`[0, audio_duration]`, and for positive audio duration, the fragments of
`cuts_to_fragments` together with the cuts exactly tile `[0, audio_duration]`:
a point lies in `[0, audio_duration]` iff it lies in a fragment or in a cut,
the fragments are pairwise disjoint and ordered, and no fragment overlaps any
cut. -/
theorem c3_fragments_tile (cuts : List (ℚ × ℚ)) (len : ℚ)
    (hord : ∀ p ∈ cuts, p.1 ≤ p.2)
    (hpw : cuts.Pairwise (fun p q => p.2 ≤ q.1))
    (hrange : ∀ p ∈ cuts, 0 ≤ p.1 ∧ p.2 ≤ len)
    (hlen : 0 < len) :
    (∀ x : ℚ, (0 ≤ x ∧ x ≤ len) ↔
        ((∃ f ∈ cuts_to_fragments cuts len, f.1 ≤ x ∧ x ≤ f.2) ∨
          ∃ p ∈ cuts, p.1 ≤ x ∧ x ≤ p.2)) ∧
      (cuts_to_fragments cuts len).Pairwise (fun f g => f.2 ≤ g.1) ∧
      (∀ f ∈ cuts_to_fragments cuts len, ∀ p ∈ cuts, f.2 ≤ p.1 ∨ p.2 ≤ f.1) := by
  refine ⟨fun x => ⟨fun hx => ?_, fun hx => ?_⟩, fragAux_pairwise cuts 0 len hord,
    fragAux_cut_disjoint cuts 0 len hord hpw (fun p hp => (hrange p hp).1)⟩
  · exact fragAux_cover cuts 0 len hord hpw (fun p hp => (hrange p hp).1)
      (fun p hp => (hrange p hp).2) hlen x hx.1 hx.2
  · rcases hx with ⟨f, hf, hf1, hf2⟩ | ⟨p, hp, hp1, hp2⟩
    · constructor
      · exact (fragAux_mem_lb cuts 0 len f hf).trans hf1
      · exact hf2.trans (fragAux_mem_ub cuts 0 len hord (fun p hp => (hrange p hp).2) f hf)
    · constructor
      · exact ((hrange p hp).1).trans hp1
      · exact hp2.trans (hrange p hp).2

/-- Witness for C3 at the spec's own example: duration 100, cuts
`[(10,20),(50,60)]`, fragments `[(0,10),(20,50),(60,100)]`. -/
theorem c3_fragments_tile_witness :
    ((∀ p ∈ [((10 : ℚ), (20 : ℚ)), ((50 : ℚ), (60 : ℚ))], p.1 ≤ p.2) ∧
      ([((10 : ℚ), (20 : ℚ)), ((50 : ℚ), (60 : ℚ))].Pairwise fun p q => p.2 ≤ q.1) ∧
      (∀ p ∈ [((10 : ℚ), (20 : ℚ)), ((50 : ℚ), (60 : ℚ))], 0 ≤ p.1 ∧ p.2 ≤ 100) ∧
      (0 : ℚ) < 100) ∧
    ((∀ x : ℚ, (0 ≤ x ∧ x ≤ 100) ↔
        ((∃ f ∈ cuts_to_fragments [((10 : ℚ), (20 : ℚ)), ((50 : ℚ), (60 : ℚ))] 100,
            f.1 ≤ x ∧ x ≤ f.2) ∨
          ∃ p ∈ [((10 : ℚ), (20 : ℚ)), ((50 : ℚ), (60 : ℚ))], p.1 ≤ x ∧ x ≤ p.2)) ∧
      (cuts_to_fragments [((10 : ℚ), (20 : ℚ)), ((50 : ℚ), (60 : ℚ))] 100).Pairwise
        (fun f g => f.2 ≤ g.1) ∧
      (∀ f ∈ cuts_to_fragments [((10 : ℚ), (20 : ℚ)), ((50 : ℚ), (60 : ℚ))] 100,
        ∀ p ∈ [((10 : ℚ), (20 : ℚ)), ((50 : ℚ), (60 : ℚ))], f.2 ≤ p.1 ∨ p.2 ≤ f.1)) := by
  have h1 : ∀ p ∈ [((10 : ℚ), (20 : ℚ)), ((50 : ℚ), (60 : ℚ))], p.1 ≤ p.2 := by norm_num
  have h2 : [((10 : ℚ), (20 : ℚ)), ((50 : ℚ), (60 : ℚ))].Pairwise fun p q => p.2 ≤ q.1 := by
    norm_num
  have h3 : ∀ p ∈ [((10 : ℚ), (20 : ℚ)), ((50 : ℚ), (60 : ℚ))], 0 ≤ p.1 ∧ p.2 ≤ 100 := by
    norm_num
  exact ⟨⟨h1, h2, h3, by norm_num⟩,
    c3_fragments_tile [((10 : ℚ), (20 : ℚ)), ((50 : ℚ), (60 : ℚ))] 100 h1 h2 h3 (by norm_num)⟩

/-! ### Claim C6: snap correctness -/

theorem snapTime_eq_start (cuts : List (ℚ × ℚ)) :
    (∀ p ∈ cuts, p.1 < p.2) → cuts.Pairwise (fun p q => p.2 + mergeEps < q.1) →
    ∀ s e t0 : ℚ, (s, e) ∈ cuts → s < t0 → t0 < e → snapTime t0 cuts = s := by
  induction cuts with
  | nil =>
    intro _ _ s e t0 hmem
    cases hmem
  | cons q rest ih =>
    intro hord hpw s e t0 hmem h1 h2
    rcases hpw with _ | ⟨hq, hpw⟩
    rcases List.mem_cons.mp hmem with heq | hmem'
    · subst heq
      rw [snapTime, if_pos (Or.inl ⟨h1, h2⟩)]
    · have hqs : q.2 + mergeEps < s := hq (s, e) hmem'
      have hql : q.1 < q.2 := hord q (List.mem_cons_self q rest)
      have heps : snapEps = mergeEps := rfl
      rw [snapTime, if_neg, ih (fun p hp => hord p (List.mem_cons_of_mem q hp)) hpw
        s e t0 hmem' h1 h2]
      rintro (⟨_, hlt⟩ | habs)
      · have := mergeEps_pos
        linarith
      · rw [heps, abs_lt] at habs
        have := mergeEps_pos
        linarith [habs.2]

theorem total_cut_before_eq_zero (cuts : List (ℚ × ℚ)) (t : ℚ)
    (h : ∀ p ∈ cuts, t ≤ p.1 ∧ p.1 ≤ p.2) : total_cut_before t cuts = 0 := by
  induction cuts with
  | nil => rfl
  | cons q rest ih =>
    obtain ⟨hq1, hq2⟩ := h q (List.mem_cons_self q rest)
    rw [total_cut_before, ih fun p hp => h p (List.mem_cons_of_mem q hp)]
    have hterm : (if q.2 ≤ t then q.2 - q.1 else if q.1 < t ∧ t < q.2 then t - q.1 else 0)
        = 0 := by
      split_ifs with hc1 hc2
      · linarith
      · linarith [hc2.1]
      · rfl
    rw [hterm, add_zero]

theorem total_cut_before_le (cuts : List (ℚ × ℚ)) : ∀ c t : ℚ,
    (∀ p ∈ cuts, p.1 ≤ p.2) → cuts.Pairwise (fun p q => p.2 ≤ q.1) →
    (∀ p ∈ cuts, c ≤ p.1) → c ≤ t → total_cut_before t cuts ≤ t - c := by
  induction cuts with
  | nil =>
    intro c t _ _ _ hct
    rw [total_cut_before]
    linarith
  | cons q rest ih =>
    intro c t hord hpw hstart hct
    rcases hpw with _ | ⟨hq, hpw⟩
    have hqord : q.1 ≤ q.2 := hord q (List.mem_cons_self q rest)
    have hcq : c ≤ q.1 := hstart q (List.mem_cons_self q rest)
    rw [total_cut_before]
    by_cases h1 : q.2 ≤ t
    · rw [if_pos h1]
      have hrest := ih q.2 t (fun p hp => hord p (List.mem_cons_of_mem q hp)) hpw
        (fun p hp => hq p hp) h1
      linarith
    · rw [if_neg h1]
      push_neg at h1
      by_cases h2 : q.1 < t ∧ t < q.2
      · rw [if_pos h2]
        have hrest : total_cut_before t rest = 0 := by
          refine total_cut_before_eq_zero rest t fun p hp => ⟨?_, hord p (List.mem_cons_of_mem q hp)⟩
          exact le_of_lt (lt_of_lt_of_le h2.2 (hq p hp))
        rw [hrest]
        linarith [h2.1]
      · rw [if_neg h2]
        have htq : t ≤ q.1 := by
          by_contra hc
          push_neg at hc
          exact h2 ⟨hc, h1⟩
        have hrest : total_cut_before t rest = 0 := by
          refine total_cut_before_eq_zero rest t fun p hp => ⟨?_, hord p (List.mem_cons_of_mem q hp)⟩
          exact htq.trans (hqord.trans (hq p hp))
        rw [hrest]
        linarith

/-- C6 counterexample: for the normalized cut list `[(-4, 2)]` (one interval,
start below 0) and an event at time 1 strictly inside the cut, the per-event
procedure yields 0 = max(0, -4 - 0), not the claim's literal
"cut start minus the total duration of cuts before it" = -4. -/
theorem c6_counterexample :
    NormalizedCuts [((-4 : ℚ), (2 : ℚ))] ∧
      (-4 : ℚ) < clipTime 10 1 ∧ clipTime 10 1 < 2 ∧
      perEventTime [((-4 : ℚ), (2 : ℚ))] 10 1 = 0 ∧
      (-4 : ℚ) - total_cut_before (-4) [((-4 : ℚ), (2 : ℚ))] = -4 ∧
      (0 : ℚ) ≠ -4 := by
  refine ⟨⟨by norm_num, List.pairwise_singleton _ _⟩, by norm_num [clipTime],
    by norm_num [clipTime], ?_, by norm_num [total_cut_before], by norm_num⟩
  norm_num [perEventTime, snapTime, clipTime, total_cut_before, snapEps]

/-- C6 amended: for a normalized cut list, an event whose clipped time falls
strictly inside a cut `(s, e)` is mapped by the per-event procedure of
`adjust_timeline` to exactly the cut-axis time of that cut's start,
`max(0, s - total_cut_before(s))`; when additionally all cut starts are
nonnegative (as for cuts of real audio) this equals
`s - total_cut_before(s)`, the cut's start minus the total duration of all
cuts before it. -/
theorem c6_snap_to_cut_start (cuts : List (ℚ × ℚ)) (len t s e : ℚ)
    (h : NormalizedCuts cuts) ( hmem : (s, e) ∈ cuts)
    (h1 : s < clipTime len t) (h2 : clipTime len t < e) :
    perEventTime cuts len t = max 0 (s - total_cut_before s cuts) ∧
      ((∀ p ∈ cuts, 0 ≤ p.1) →
        perEventTime cuts len t = s - total_cut_before s cuts) := by
  obtain ⟨hord, hpw⟩ := h
  have hsnap : snapTime (clipTime len t) cuts = s :=
    snapTime_eq_start cuts hord hpw s e (clipTime len t) hmem h1 h2
  have hmain : perEventTime cuts len t = max 0 (s - total_cut_before s cuts) := by
    unfold perEventTime
    rw [hsnap]
  refine ⟨hmain, fun hpos => ?_⟩
  have hple : cuts.Pairwise fun p q => p.2 ≤ q.1 := by
    refine hpw.imp ?_
    intro p q hrel
    have := mergeEps_pos
    linarith
  have hb : total_cut_before s cuts ≤ s - 0 := by
    refine total_cut_before_le cuts 0 s (fun p hp => le_of_lt (hord p hp)) hple hpos ?_
    exact hpos (s, e) hmem
  rw [hmain, max_eq_right (by linarith)]

/-- Witness for C6 at the spec's own example: cuts `[(10, 25)]`, event at
original time 22 strictly inside the cut, mapped to 10. -/
theorem c6_snap_to_cut_start_witness :
    (NormalizedCuts [((10 : ℚ), (25 : ℚ))] ∧
      ((10 : ℚ), (25 : ℚ)) ∈ [((10 : ℚ), (25 : ℚ))] ∧
      (10 : ℚ) < clipTime 100 22 ∧ clipTime 100 22 < 25) ∧
    (perEventTime [((10 : ℚ), (25 : ℚ))] 100 22 =
        max 0 (10 - total_cut_before 10 [((10 : ℚ), (25 : ℚ))]) ∧
      ((∀ p ∈ [((10 : ℚ), (25 : ℚ))], 0 ≤ p.1) →
        perEventTime [((10 : ℚ), (25 : ℚ))] 100 22 =
          10 - total_cut_before 10 [((10 : ℚ), (25 : ℚ))])) := by
  have hn : NormalizedCuts [((10 : ℚ), (25 : ℚ))] :=
    ⟨by norm_num, List.pairwise_singleton _ _⟩
  have hmem : ((10 : ℚ), (25 : ℚ)) ∈ [((10 : ℚ), (25 : ℚ))] := List.mem_singleton.mpr rfl
  have hc1 : (10 : ℚ) < clipTime 100 22 := by norm_num [clipTime]
  have hc2 : clipTime 100 22 < 25 := by norm_num [clipTime]
  exact ⟨⟨hn, hmem, hc1, hc2⟩,
    c6_snap_to_cut_start [((10 : ℚ), (25 : ℚ))] 100 22 10 25 hn hmem hc1 hc2⟩

end Slidecast
